import Mathlib

/-!
# sealib `threads.h`: spin lock, persistent thread pool, ephemeral parallel run

A shallow embedding of `src/threads.h` (namespace `sea`).

* `spin_lock` is a record holding the atomic flag `_a`; every member function
  is a function on that record.  Concurrent use is a transition system
  (`LockSys`) whose steps are the atomic operations of the member functions.
* `thread_pool` is a record of the data members together with a trace of the
  observable actions (job invocations, stores to `_cmd`, `notify()` calls,
  thread spawns and joins).  The member functions are given as run by the
  driving thread.
* The drain loop `do_run`, executed by several participants at once, is the
  transition system `Drain`: one step per atomic fetch-and-increment of
  `_currj`, one step per job invocation.

Integers: `std::atomic<int>` arithmetic (`_currj++`, `--_busy`) is two's
complement on 32 bits and is written with `wrap32`.  Arithmetic on plain `int`
values has no defined result on overflow: the pool's sums are written with the
ordinary operations of `Int` and used within the range of `int`, and the
counter `int i` of `temporary_run` ends the call in an error when `i++` finds
`i` at `INT_MAX`.
-/

namespace sea

/-! ## Machine integers -/

/-- The value of a 32-bit two's complement `int` holding the integer `x`. -/
def wrap32 (x : Int) : Int := (x + 2147483648) % 4294967296 - 2147483648

/-! ## `spin_lock` -/

/-- The class `spin_lock`: the atomic flag `_a`, initially `false` (free). -/
structure spin_lock where
  _a : Bool
deriving DecidableEq, Repr

/-- The state `std::atomic<bool> _a = {false}` of a fresh lock. -/
def spin_lock.init : spin_lock := ⟨false⟩

/-- The call `_a.exchange(v)`: returns the old flag and stores `v`. -/
def spin_lock.exchange (v : Bool) (s : spin_lock) : Bool × spin_lock := (s._a, ⟨v⟩)

/-- One evaluation of the loop condition of `lock()`,
`while ( _a.exchange(true) );`: the first component tells whether the loop
goes round again. -/
def spin_lock.lock_iter (s : spin_lock) : Bool × spin_lock := spin_lock.exchange true s

/-- The member `lock()`, with a bound on the number of exchanges: `none` when
the flag was still held after `fuel` attempts. -/
def spin_lock.lock : Nat → spin_lock → Option spin_lock
  | 0, _ => none
  | fuel + 1, s =>
    let r := spin_lock.lock_iter s
    if r.1 then spin_lock.lock fuel r.2 else some r.2

/-- The member `unlock()`: `_a.store(false)`. -/
def spin_lock.unlock (_s : spin_lock) : spin_lock := ⟨false⟩

/-- The member `try_lock()`: `return !_a.exchange(true)`. -/
def spin_lock.try_lock (s : spin_lock) : Bool × spin_lock :=
  let r := spin_lock.exchange true s
  (!r.1, r.2)

/-- The member `locked()`: `return _a.load()`; the lock is returned unchanged. -/
def spin_lock.locked (s : spin_lock) : Bool × spin_lock := (s._a, s)

/-! ### Threads contending for one `spin_lock` -/

/-- Where a client thread of the lock stands. -/
inductive LPc where
  | idle      -- outside the critical section, not inside `lock()`
  | spinning  -- inside `lock()`, the last exchange returned `true`
  | critical  -- inside its critical section (it acquired the lock)
deriving DecidableEq, Repr

/-- The atomic operations a client thread performs. -/
inductive LAct where
  | lock_iter  -- one exchange of the loop of `lock()`
  | try_lock   -- one call of `try_lock()`
  | unlock     -- one call of `unlock()`
deriving DecidableEq, Repr

/-- One lock shared by the threads `0 .. pcs.length - 1`. -/
structure LockSys where
  lk : spin_lock
  pcs : List LPc
deriving DecidableEq, Repr

/-- All `n` threads idle, the lock free. -/
def LockSys.init (n : Nat) : LockSys := ⟨spin_lock.init, List.replicate n LPc.idle⟩

/-- Thread `i` performs the atomic operation `a`; `none` when the thread does
not exist or the operation is not one it may perform where it stands: a thread
calls `lock()` or `try_lock()` only outside its critical section, and
`unlock()` only inside. -/
def LockSys.step (i : Nat) (a : LAct) (s : LockSys) : Option LockSys :=
  match s.pcs[i]?, a with
  | some LPc.idle, LAct.lock_iter | some LPc.spinning, LAct.lock_iter =>
    let r := spin_lock.lock_iter s.lk
    some ⟨r.2, s.pcs.set i (if r.1 then LPc.spinning else LPc.critical)⟩
  | some LPc.idle, LAct.try_lock =>
    let r := spin_lock.try_lock s.lk
    some ⟨r.2, s.pcs.set i (if r.1 then LPc.critical else LPc.idle)⟩
  | some LPc.critical, LAct.unlock =>
    some ⟨spin_lock.unlock s.lk, s.pcs.set i LPc.idle⟩
  | _, _ => none

/-- Run a schedule: the listed operations one after the other. -/
def LockSys.exec : List (Nat × LAct) → LockSys → Option LockSys
  | [], s => some s
  | (i, a) :: rest, s => (LockSys.step i a s).bind (LockSys.exec rest)

/-- The invariant of the lock system: the number of threads inside their
critical section is one when the flag is held and zero when it is free. -/
def LockSys.Inv (s : LockSys) : Prop :=
  s.pcs.count LPc.critical = if s.lk._a then 1 else 0

/-! ## `thread_pool` -/

/-- The enumeration `thread_pool::command`. -/
inductive command where
  | wait
  | run
  | stop
deriving DecidableEq, Repr

/-- The observable actions of a pool. -/
inductive Event where
  | invoke (j : Int)     -- `(*_func)(j)`
  | store (c : command)  -- `_cmd = c`
  | notify               -- a call of `notify()`
  | spawn                -- `_threads.emplace_back(loop_wrapper, this)`
  | join                 -- `t.join()`
deriving DecidableEq, Repr

/-- The data members of `thread_pool`: `_threads` is `_threads.size()`, the
callable behind `_func` is seen through the `invoke` events of `trace`, which
lists the actions performed so far, oldest first. -/
structure thread_pool where
  _threads : Nat
  _cmd : command
  _busy : Int
  _currj : Int
  _totalj : Int
  trace : List Event
deriving DecidableEq, Repr

/-- The store `_cmd = c`. -/
def thread_pool.set_cmd (c : command) (p : thread_pool) : thread_pool :=
  { p with _cmd := c, trace := p.trace ++ [Event.store c] }

/-- The member `notify()`: lock and unlock `_mutex`, then `_cvar.notify_all()`. -/
def thread_pool.notify (p : thread_pool) : thread_pool :=
  { p with trace := p.trace ++ [Event.notify] }

/-- The member `wait_free()` as the driving thread runs it: it returns at once
when `_busy > 0` is false, and otherwise waits on `_cvar` until a worker has
brought `_busy` down; `none` is the driving thread still waiting. -/
def thread_pool.wait_free (p : thread_pool) : Option thread_pool :=
  if p._busy > 0 then none else some p

/-- The first statement of `do_wait()`, run by a worker on its way to the
parked wait: `if ( --_busy == 0 ) notify();`. -/
def thread_pool.do_wait_enter (p : thread_pool) : thread_pool :=
  let p1 := { p with _busy := wrap32 (p._busy - 1) }
  if p1._busy = 0 then thread_pool.notify p1 else p1

/-- The loop `while ( n-- > 0 ) _threads.emplace_back(loop_wrapper, this);`
for a count `n` that is positive `k` times. -/
def thread_pool.spawn_workers : Nat → thread_pool → thread_pool
  | 0, p => p
  | k + 1, p =>
    thread_pool.spawn_workers k
      { p with _threads := p._threads + 1, trace := p.trace ++ [Event.spawn] }

/-- The member `extend_by(n)` up to its call of `wait_free()`: the stores to
`_busy` and `_cmd` and the spawn loop. -/
def thread_pool.extend_by_spawn (n : Int) (p : thread_pool) : thread_pool :=
  thread_pool.spawn_workers n.toNat
    (thread_pool.set_cmd command.wait { p with _busy := n + (p._threads : Int) })

/-- The member `extend_by(n)`: after the stores and the spawn loop each new
worker runs `loop()`, finds `_cmd == command::wait` and enters `do_wait()`;
then the driving thread passes `wait_free()`, or waits for ever (`none`)
because no thread is left to decrement `_busy`. -/
def thread_pool.extend_by (n : Int) (p : thread_pool) : Option thread_pool :=
  thread_pool.wait_free (thread_pool.do_wait_enter^[n.toNat] (thread_pool.extend_by_spawn n p))

/-- The constructor `thread_pool(int n)` up to the barrier of `extend_by`;
`raw` is the indeterminate content of the scalar members before the body runs,
and `_threads` starts empty. -/
def thread_pool.construct_spawn (n : Int) (raw : thread_pool) : thread_pool :=
  thread_pool.extend_by_spawn (if n > 0 then n - 1 else 0) { raw with _threads := 0, trace := [] }

/-- The constructor `thread_pool(int n) { extend_by(n > 0 ? n - 1 : 0); }`. -/
def thread_pool.construct (n : Int) (raw : thread_pool) : Option thread_pool :=
  thread_pool.extend_by (if n > 0 then n - 1 else 0) { raw with _threads := 0, trace := [] }

/-- The loop of `do_run()`, `while ( (j = _currj++) < _totalj ) (*_func)(j);`,
run by one thread alone; `none` when `fuel` evaluations of the condition were
not enough. -/
def thread_pool.do_run_loop : Nat → thread_pool → Option thread_pool
  | 0, _ => none
  | fuel + 1, p =>
    let j := p._currj
    let p1 := { p with _currj := wrap32 (j + 1) }
    if j < p1._totalj then
      thread_pool.do_run_loop fuel { p1 with trace := p1.trace ++ [Event.invoke j] }
    else some p1

/-- The member `do_run()` run by one thread alone: the loop, then
`_cmd = command::wait`. -/
def thread_pool.do_run (fuel : Nat) (p : thread_pool) : Option thread_pool :=
  (thread_pool.do_run_loop fuel p).map (thread_pool.set_cmd command.wait)

/-- The member `run_njob(n, f)` as the driving thread runs it while no worker
takes a job: install the descriptor, wake the workers when there are any,
drain, pass the barrier. -/
def thread_pool.run_njob (fuel : Nat) (n : Int) (p : thread_pool) : Option thread_pool :=
  let p1 := { p with _currj := 0, _totalj := n }
  let p2 := if p1._threads ≠ 0 then thread_pool.notify (thread_pool.set_cmd command.run p1) else p1
  (thread_pool.do_run fuel p2).bind thread_pool.wait_free

/-- The member `run(f)`: `run_njob((int)_threads.size(), f)`. -/
def thread_pool.run (fuel : Nat) (p : thread_pool) : Option thread_pool :=
  thread_pool.run_njob fuel (p._threads : Int) p

/-- The member `stop()` called on a pool whose workers are parked: store
`command::stop`, `notify()`, join every worker, clear `_threads`, store 0 to
`_busy` and `command::wait` to `_cmd`. -/
def thread_pool.stop (p : thread_pool) : thread_pool :=
  let p1 := thread_pool.notify (thread_pool.set_cmd command.stop p)
  let p2 := { p1 with trace := p1.trace ++ List.replicate p1._threads Event.join }
  thread_pool.set_cmd command.wait { p2 with _threads := 0, _busy := 0 }

/-- The indices passed to the callable, in the order of the calls. -/
def thread_pool.invoked (p : thread_pool) : List Int :=
  p.trace.filterMap (fun e => match e with | Event.invoke j => some j | _ => none)

/-! ### `temporary_run` -/

/-- What a call of `temporary_run` that returns did: the indices the callable
was invoked on by the calling thread, for each thread of `ts` in the order of
creation the indices that thread invokes the callable on, and the number of
threads joined. -/
structure TempRun where
  caller : List Int
  spawned : List (List Int)
  joined : Nat
deriving DecidableEq, Repr

/-- The ways a call of `temporary_run` ends without returning. -/
inductive TempErr where
  | length_error  -- `ts.reserve(nth)` throws `std::length_error`: `nth > ts.max_size()`
  | int_overflow  -- `i++` is evaluated with `i` at `INT_MAX`: no defined result
deriving DecidableEq, Repr

/-- The loop `while ( nth-- > 0 ) ts.emplace_back([&f] (int i) { f(i); }, i++);`:
every round creates one thread, which calls `f` on the current value of the
`int i`, and increments `i`; the increment has a result only below `INT_MAX`. -/
def temporary_run_loop : Nat → Int → List (List Int) → Except TempErr (List (List Int))
  | 0, _, ts => Except.ok ts
  | nth + 1, i, ts =>
    if i + 1 < 2147483648 then temporary_run_loop nth (i + 1) (ts ++ [[i]])
    else Except.error TempErr.int_overflow

/-- The static member `temporary_run(nth, f)` for a `size_t nth`; `max_size` is
`ts.max_size()`, the largest capacity `std::vector<std::thread>::reserve`
accepts, a constant of the standard library.  With `nth ≤ 1` the call is
`f(0)` and returns before `ts` exists; otherwise `ts.reserve(nth)` throws when
`nth` exceeds `max_size`, before any thread is created. -/
def temporary_run (max_size nth : Nat) : Except TempErr TempRun :=
  if nth ≤ 1 then Except.ok ⟨[0], [], 0⟩
  else if nth > max_size then Except.error TempErr.length_error
  else
    match temporary_run_loop nth 0 [] with
    | Except.ok ts => Except.ok ⟨[], ts, ts.length⟩
    | Except.error e => Except.error e

/-! ### The drain loop run by several participants -/

/-- Where a participant stands in `do_run()`. -/
inductive Pc where
  | ready          -- about to evaluate `(j = _currj++) < _totalj`
  | got (j : Int)  -- the test succeeded for `j`, about to call `(*_func)(j)`
  | done           -- the test failed, `_cmd = command::wait` is stored
deriving DecidableEq, Repr

/-- The shared dispatch state and the participants of one `run_njob`:
participant 0 is the driving thread, the others are workers; `calls` lists the
indices the callable has been invoked on, latest first. -/
structure Drain where
  _currj : Int
  _totalj : Int
  _cmd : command
  pcs : List Pc
  calls : List Int
deriving DecidableEq, Repr

/-- The state in which the participants enter `do_run()` for `run_njob(n, f)`:
the driving thread and the `w` workers that take part in this dispatch (a
worker that wakes after `_cmd` is back to `command::wait` takes none);
`_currj = 0`, `_totalj = n`, and `_cmd` is `command::run` when there are
workers. -/
def Drain.init (n : Int) (w : Nat) : Drain :=
  ⟨0, n, if w = 0 then command.wait else command.run, List.replicate (w + 1) Pc.ready, []⟩

/-- Participant `i` takes its next atomic step: the fetch-and-increment with
the comparison, or the call of the callable on the index it holds; `none` when
there is no such participant or it has left `do_run()`. -/
def Drain.step (i : Nat) (s : Drain) : Option Drain :=
  match s.pcs[i]? with
  | some Pc.ready =>
    let j := s._currj
    let s1 := { s with _currj := wrap32 (j + 1) }
    if j < s1._totalj then some { s1 with pcs := s1.pcs.set i (Pc.got j) }
    else some { s1 with pcs := s1.pcs.set i Pc.done, _cmd := command.wait }
  | some (Pc.got j) => some { s with calls := j :: s.calls, pcs := s.pcs.set i Pc.ready }
  | _ => none

/-- Run a schedule: the listed participants step one after the other. -/
def Drain.exec : List Nat → Drain → Option Drain
  | [], s => some s
  | i :: rest, s => (Drain.step i s).bind (Drain.exec rest)

/-- The index a participant has claimed and not yet passed to the callable. -/
def Pc.held : Pc → Option Int
  | Pc.got j => some j
  | _ => none

/-- The indices claimed so far: passed to the callable or about to be. -/
def Drain.claimed (s : Drain) : List Int := s.calls ++ s.pcs.filterMap Pc.held

/-- The number of participants that have left `do_run()`. -/
def Drain.finished (s : Drain) : Nat := s.pcs.count Pc.done

/-- Every participant has left `do_run()`. -/
def Drain.allDone (s : Drain) : Prop := ∀ pc ∈ s.pcs, pc = Pc.done

instance Drain.decAllDone (s : Drain) : Decidable s.allDone :=
  inferInstanceAs (Decidable (∀ pc ∈ s.pcs, pc = Pc.done))

/-- The invariant of the drain after `k` steps of `run_njob(n, f)` with `w`
workers: the cursor is the wrapped number `c` of fetches made, the claimed
indices are `0 .. min c n - 1` in some order, each fetch beyond `n` ended one
participant, and the `k` steps taken and the steps still to come add up to
`2 * n + w + 1`. -/
def Drain.Inv (n w k : Nat) (s : Drain) : Prop :=
  ∃ c : Nat, s._currj = wrap32 (c : Int) ∧ s._totalj = (n : Int) ∧ s.pcs.length = w + 1
    ∧ s.claimed.Perm ((List.range (min c n)).map Int.ofNat)
    ∧ c = min c n + s.finished
    ∧ k + 2 * (n - min c n) + (s.pcs.filterMap Pc.held).length + (w + 1 - s.finished)
        = 2 * n + (w + 1)

/-! ## Theorems -/

/-- Splitting a list at an index: the element there, what is before, what is
after, and the same split of the list with that element replaced. -/
theorem list_split_at {α : Type} (l : List α) (i : Nat) (x : α) (h : l[i]? = some x) :
    ∃ a b, l = a ++ x :: b ∧ ∀ y, l.set i y = a ++ y :: b := by
  induction l generalizing i with
  | nil => simp at h
  | cons hd tl ih =>
    cases i with
    | zero =>
      simp at h
      exact ⟨[], tl, by simp [h], by intro y; simp⟩
    | succ k =>
      simp at h
      obtain ⟨a, b, h1, h2⟩ := ih k h
      refine ⟨hd :: a, b, by simp [h1], ?_⟩
      intro y
      simp [h2 y]

theorem LockSys.lock_inv_init (n : Nat) : (LockSys.init n).Inv := by
  simp [LockSys.Inv, LockSys.init, spin_lock.init, List.count_replicate]

theorem LockSys.lock_inv_step (i : Nat) (a : LAct) (s s' : LockSys) (hs : s.Inv)
    (h : LockSys.step i a s = some s') : s'.Inv := by
  obtain ⟨⟨flag⟩, pcs⟩ := s
  unfold LockSys.Inv at hs ⊢
  unfold LockSys.step at h
  simp only at h hs
  cases hp : pcs[i]? with
  | none => simp [hp] at h
  | some pc =>
    obtain ⟨u, v, h1, h2⟩ := list_split_at pcs i pc hp
    rw [hp] at h
    subst h1
    cases pc <;> cases a <;> cases flag <;>
      simp [spin_lock.lock_iter, spin_lock.exchange, spin_lock.try_lock, spin_lock.unlock,
        h2] at h <;>
      subst h <;> simp [List.count_cons] at hs ⊢ <;> omega

theorem LockSys.lock_inv_exec (sched : List (Nat × LAct)) (s s' : LockSys) (hs : s.Inv)
    (h : LockSys.exec sched s = some s') : s'.Inv := by
  induction sched generalizing s with
  | nil =>
    simp [LockSys.exec] at h
    exact h ▸ hs
  | cons hd tl ih =>
    obtain ⟨i, a⟩ := hd
    simp only [LockSys.exec] at h
    cases hstep : LockSys.step i a s with
    | none => simp [hstep] at h
    | some s1 =>
      rw [hstep] at h
      exact ih s1 (LockSys.lock_inv_step i a s s1 hs hstep) h

/-! ### The drain loop -/

theorem wrap32_of_int (x : Int) (h1 : -2147483648 ≤ x) (h2 : x < 2147483648) : wrap32 x = x := by
  unfold wrap32
  omega

theorem wrap32_range (x : Int) : -2147483648 ≤ wrap32 x ∧ wrap32 x < 2147483648 := by
  unfold wrap32
  omega

theorem Drain.inv_init (n w : Nat) : Drain.Inv n w 0 (Drain.init n w) := by
  refine ⟨0, ?_, rfl, ?_, ?_, ?_, ?_⟩
  · simp [Drain.init, wrap32]
  · simp [Drain.init]
  · simp [Drain.init, Drain.claimed, Pc.held]
  · simp [Drain.init, Drain.finished, List.count_replicate]
  · simp [Drain.init, Drain.finished, List.count_replicate, Pc.held]

theorem Drain.inv_step (n w k i : Nat) (s s' : Drain) (hb : n + (w + 1) ≤ 2147483648)
    (hs : Drain.Inv n w k s) (h : Drain.step i s = some s') : Drain.Inv n w (k + 1) s' := by
  obtain ⟨c, hc, ht, hl, hperm, hfin, hmeas⟩ := hs
  obtain ⟨currj, totalj, cmd, pcs, calls⟩ := s
  simp only [Drain.claimed, Drain.finished] at hc ht hl hperm hfin hmeas
  unfold Drain.step at h
  simp only at h
  cases hp : pcs[i]? with
  | none => simp [hp] at h
  | some pc =>
    obtain ⟨u, v, h1, h2⟩ := list_split_at pcs i pc hp
    rw [hp] at h
    subst h1
    have hcu := List.count_le_length Pc.done u
    have hcv := List.count_le_length Pc.done v
    cases pc with
    | ready =>
      simp only [List.count_append, List.count_cons, List.length_append, List.length_cons,
        List.filterMap_append, List.filterMap_cons, Pc.held] at hl hperm hfin hmeas
      simp at hfin hmeas
      have hcur : currj = (c : Int) := by
        rw [hc]; apply wrap32_of_int <;> omega
      clear hc
      subst hcur
      simp only [h2] at h
      by_cases hlt : (c : Int) < totalj
      · rw [if_pos hlt] at h
        simp only [Option.some.injEq] at h
        subst h
        have hcn : c < n := by omega
        refine ⟨c + 1, congrArg wrap32 (Nat.cast_succ c).symm, ht, by simp; omega, ?_, ?_, ?_⟩
        · simp only [Drain.claimed, List.filterMap_append, List.filterMap_cons, Pc.held]
          have e1 : min (c + 1) n = c + 1 := by omega
          have e2 : min c n = c := by omega
          rw [e1, List.range_succ, List.map_append]
          rw [e2] at hperm
          simp only [List.map_cons, List.map_nil]
          have p1 : (calls ++ (List.filterMap Pc.held u ++ (c : Int) :: List.filterMap Pc.held v)).Perm
              ((c : Int) :: (calls ++ (List.filterMap Pc.held u ++ List.filterMap Pc.held v))) := by
            rw [← List.append_assoc, ← List.append_assoc]
            exact List.perm_middle
          exact p1.trans ((List.Perm.cons _ hperm).trans (List.perm_append_singleton _ _).symm)
        · simp [Drain.finished, List.filterMap_cons, Pc.held]; omega
        · simp [Drain.finished, List.filterMap_cons, Pc.held]; omega
      · rw [if_neg hlt] at h
        simp only [Option.some.injEq] at h
        subst h
        have hcn : n ≤ c := by omega
        refine ⟨c + 1, congrArg wrap32 (Nat.cast_succ c).symm, ht, by simp; omega, ?_, ?_, ?_⟩
        · simp only [Drain.claimed, List.filterMap_append, List.filterMap_cons, Pc.held]
          have e1 : min (c + 1) n = min c n := by omega
          rw [e1]
          exact hperm
        · simp [Drain.finished, List.filterMap_cons, Pc.held]; omega
        · simp [Drain.finished, List.filterMap_cons, Pc.held]; omega
    | got j =>
      simp only [List.count_append, List.count_cons, List.length_append, List.length_cons,
        List.filterMap_append, List.filterMap_cons, Pc.held] at hl hperm hfin hmeas
      simp at hfin hmeas
      simp only [h2, Option.some.injEq] at h
      subst h
      refine ⟨c, hc, ht, ?_, ?_, ?_, ?_⟩ <;> clear hc
      · simp; omega
      · simp only [Drain.claimed, List.filterMap_append, List.filterMap_cons, Pc.held]
        have p1 : (calls ++ (List.filterMap Pc.held u ++ j :: List.filterMap Pc.held v)).Perm
            (j :: (calls ++ (List.filterMap Pc.held u ++ List.filterMap Pc.held v))) := by
          rw [← List.append_assoc, ← List.append_assoc]
          exact List.perm_middle
        exact p1.symm.trans hperm |> fun q => by simpa using q
      · simp [Drain.finished, List.filterMap_cons, Pc.held]; omega
      · simp [Drain.finished, List.filterMap_cons, Pc.held]; omega
    | done => simp at h

theorem Drain.inv_exec (n w k : Nat) (sched : List Nat) (s s' : Drain)
    (hb : n + (w + 1) ≤ 2147483648) (hs : Drain.Inv n w k s)
    (h : Drain.exec sched s = some s') : Drain.Inv n w (k + sched.length) s' := by
  induction sched generalizing s k with
  | nil =>
    simp [Drain.exec] at h
    exact h ▸ hs
  | cons hd tl ih =>
    simp only [Drain.exec] at h
    cases hstep : Drain.step hd s with
    | none => simp [hstep] at h
    | some s1 =>
      rw [hstep] at h
      have := ih (k + 1) s1 (Drain.inv_step n w k hd s s1 hb hs hstep) h
      simpa [Nat.add_assoc, Nat.add_comm 1] using this

theorem Drain.allDone_iff (s : Drain) : s.allDone ↔ s.finished = s.pcs.length := by
  unfold Drain.allDone Drain.finished
  rw [List.count_eq_length]
  constructor
  · intro h b hb; exact (h b hb).symm
  · intro h b hb; exact (h b hb).symm

theorem Drain.held_of_allDone (s : Drain) (h : s.allDone) : s.pcs.filterMap Pc.held = [] := by
  rw [List.filterMap_eq_nil_iff]
  intro pc hpc
  rw [h pc hpc]
  rfl

theorem Drain.step_range (i : Nat) (s s' : Drain) (hs : s._currj < 2147483648)
    (h : Drain.step i s = some s') : s'._currj < 2147483648 := by
  unfold Drain.step at h
  have hw := (wrap32_range (s._currj + 1)).2
  split at h
  · simp only at h
    split at h <;> simp at h <;> subst h <;> simpa using hw
  · simp at h; subst h; simpa using hs
  · simp at h

theorem Drain.exec_range (sched : List Nat) (s s' : Drain) (hs : s._currj < 2147483648)
    (h : Drain.exec sched s = some s') : s'._currj < 2147483648 := by
  induction sched generalizing s with
  | nil =>
    simp [Drain.exec] at h
    exact h ▸ hs
  | cons hd tl ih =>
    simp only [Drain.exec] at h
    cases hstep : Drain.step hd s with
    | none => simp [hstep] at h
    | some s1 =>
      rw [hstep] at h
      exact ih s1 (Drain.step_range hd s s1 hs hstep) h

theorem Drain.exec_append (a b : List Nat) (s : Drain) :
    Drain.exec (a ++ b) s = (Drain.exec a s).bind (Drain.exec b) := by
  induction a generalizing s with
  | nil => simp [Drain.exec]
  | cons hd tl ih =>
    simp only [List.cons_append, Drain.exec]
    cases Drain.step hd s with
    | none => simp
    | some s1 => simpa using ih s1

/-- The driving thread alone claims and runs `k` jobs in `2 * k` steps. -/
theorem Drain.exec_solo (n : Int) (cmd : command) (rest : List Pc) (k : Nat) (c : Int)
    (calls : List Int) (h0 : -2147483648 ≤ c) (h1 : c + k ≤ n) (h2 : n < 2147483648) :
    ∃ calls', Drain.exec (List.replicate (2 * k) 0) ⟨c, n, cmd, Pc.ready :: rest, calls⟩
      = some ⟨c + k, n, cmd, Pc.ready :: rest, calls'⟩ := by
  induction k generalizing c calls with
  | zero => exact ⟨calls, by simp [Drain.exec]⟩
  | succ m ih =>
    have hlt : c < n := by omega
    obtain ⟨calls', hex⟩ := ih (c + 1) (c :: calls) (by omega) (by push_cast at h1; omega)
    have hw : wrap32 (c + 1) = c + 1 := by apply wrap32_of_int <;> omega
    refine ⟨calls', ?_⟩
    have e : 2 * (m + 1) = (2 * m + 1) + 1 := by ring
    rw [e, List.replicate_succ, List.replicate_succ]
    simp only [Drain.exec, Drain.step, List.getElem?_cons_zero, hw, if_pos hlt, List.set_cons_zero,
      Option.some_bind]
    rw [hex]
    congr 2
    push_cast
    ring

/-! ### The pool as run by the driving thread -/

theorem thread_pool.spawn_workers_eq (k : Nat) (p : thread_pool) :
    thread_pool.spawn_workers k p
      = { p with _threads := p._threads + k, trace := p.trace ++ List.replicate k Event.spawn } := by
  induction k generalizing p with
  | zero => simp [thread_pool.spawn_workers]
  | succ m ih =>
    simp only [thread_pool.spawn_workers, ih]
    congr 1
    · omega
    · simp [List.replicate_succ]

/-- The counter and the other members after `k` workers entered `do_wait()`,
when the counter was at least `k`. -/
theorem thread_pool.do_wait_enter_iterate (k : Nat) (p : thread_pool)
    (h1 : (k : Int) ≤ p._busy) (h2 : p._busy < 2147483648) :
    (thread_pool.do_wait_enter^[k] p)._busy = p._busy - k
    ∧ (thread_pool.do_wait_enter^[k] p)._threads = p._threads
    ∧ (thread_pool.do_wait_enter^[k] p)._cmd = p._cmd
    ∧ (thread_pool.do_wait_enter^[k] p)._currj = p._currj
    ∧ (thread_pool.do_wait_enter^[k] p)._totalj = p._totalj := by
  induction k with
  | zero => simp
  | succ m ih =>
    obtain ⟨i1, i2, i3, i4, i5⟩ := ih (by push_cast at h1; omega)
    rw [Function.iterate_succ_apply']
    generalize thread_pool.do_wait_enter^[m] p = q at i1 i2 i3 i4 i5
    have hw : wrap32 (q._busy - 1) = q._busy - 1 := by
      apply wrap32_of_int <;> (push_cast at h1; omega)
    have e : p._busy - ((m + 1 : Nat) : Int) = q._busy - 1 := by push_cast; omega
    rw [e]
    clear h1 h2 i1 e
    unfold thread_pool.do_wait_enter
    simp only [hw]
    split <;> simp [thread_pool.notify, i2, i3, i4, i5]

/-- The loop of `do_run()` run by one thread alone from cursor `c` claims and
runs the `d` indices `c, c + 1, ..., c + d - 1` up to `_totalj = c + d`, in
that order, and stops with one more increment of the cursor. -/
theorem thread_pool.do_run_loop_eq (d c fuel : Nat) (p : thread_pool) (hf : d < fuel)
    (hc : p._currj = (c : Int)) (ht : p._totalj = ((c + d : Nat) : Int))
    (hb : c + d < 2147483648) :
    thread_pool.do_run_loop fuel p
      = some { p with _currj := wrap32 (((c + d : Nat) : Int) + 1),
                      trace := p.trace ++ (List.range' c d).map (fun (j : Nat) => Event.invoke (j : Int)) } := by
  induction d generalizing c fuel p with
  | zero =>
    obtain ⟨f, rfl⟩ : ∃ f, fuel = f + 1 := ⟨fuel - 1, by omega⟩
    have hnlt : ¬ (p._currj < p._totalj) := by rw [hc, ht]; simp
    simp only [thread_pool.do_run_loop, if_neg hnlt]
    simp [hc]
  | succ m ih =>
    obtain ⟨f, rfl⟩ : ∃ f, fuel = f + 1 := ⟨fuel - 1, by omega⟩
    have hlt : p._currj < p._totalj := by rw [hc, ht]; push_cast; omega
    have hw : wrap32 (p._currj + 1) = ((c + 1 : Nat) : Int) := by
      rw [hc]; push_cast; apply wrap32_of_int <;> omega
    simp only [thread_pool.do_run_loop, if_pos hlt, hw]
    rw [ih (c + 1) f _ (by omega) rfl (by simp only [ht]; congr 1; omega) (by omega)]
    have e : c + 1 + m = c + (m + 1) := by omega
    simp [List.range'_succ, hc, e]

/-- The spawn loop of `temporary_run` from `i` for `k` rounds: the threads get
`i, i + 1, ..., i + k - 1` when the last increment stays within `int`, and the
call has no result otherwise. -/
theorem temporary_run_loop_eq (k : Nat) (i : Int) (ts : List (List Int))
    (hi : i < 2147483648) :
    temporary_run_loop k i ts
      = if i + (k : Int) < 2147483648
        then Except.ok (ts ++ (List.range k).map (fun (m : Nat) => [i + (m : Int)]))
        else Except.error TempErr.int_overflow := by
  induction k generalizing i ts with
  | zero => simp [temporary_run_loop, hi]
  | succ m ih =>
    unfold temporary_run_loop
    by_cases h : i + 1 < 2147483648
    · rw [if_pos h, ih (i + 1) _ h]
      by_cases h2 : i + 1 + (m : Int) < 2147483648
      · have h3 : i + ((m + 1 : Nat) : Int) < 2147483648 := by push_cast; omega
        rw [if_pos h2, if_pos h3, List.range_succ_eq_map]
        simp [List.map_map, Function.comp_def, add_assoc, add_comm (1 : Int)]
      · have h3 : ¬ (i + ((m + 1 : Nat) : Int) < 2147483648) := by push_cast; omega
        rw [if_neg h2, if_neg h3]
    · have h3 : ¬ (i + ((m + 1 : Nat) : Int) < 2147483648) := by push_cast; omega
      rw [if_neg h, if_neg h3]

/-- Every outcome of `temporary_run(nth, f)`. -/
theorem temporary_run_eq (max_size nth : Nat) :
    temporary_run max_size nth
      = if nth ≤ 1 then Except.ok ⟨[0], [], 0⟩
        else if nth > max_size then Except.error TempErr.length_error
        else if nth < 2147483648
          then Except.ok ⟨[], (List.range nth).map (fun (i : Nat) => [(i : Int)]), nth⟩
          else Except.error TempErr.int_overflow := by
  unfold temporary_run
  rw [temporary_run_loop_eq nth 0 [] (by decide)]
  by_cases h1 : nth ≤ 1
  · simp [h1]
  · by_cases h2 : nth > max_size
    · simp [h1, h2]
    · by_cases h3 : nth < 2147483648
      · have h4 : (0 : Int) + (nth : Int) < 2147483648 := by omega
        simp [h1, h2, h3, h4]
      · have h4 : ¬ ((0 : Int) + (nth : Int) < 2147483648) := by omega
        simp [h1, h2, h3, h4]

theorem thread_pool.do_wait_enter_invoked (k : Nat) (p : thread_pool) :
    (thread_pool.do_wait_enter^[k] p).invoked = p.invoked := by
  induction k with
  | zero => rfl
  | succ m ih =>
    rw [Function.iterate_succ_apply', ← ih]
    generalize thread_pool.do_wait_enter^[m] p = q
    unfold thread_pool.do_wait_enter
    simp only
    split <;> simp [thread_pool.notify, thread_pool.invoked]

/-- The member `do_run()` run by one thread alone from cursor 0 with job count
`N`: the calls `f(0), ..., f(N - 1)` in that order, then the store of
`command::wait`. -/
theorem thread_pool.do_run_eq (fuel N : Nat) (p : thread_pool) (hf : N < fuel)
    (hN : N < 2147483648) (hc : p._currj = 0) (ht : p._totalj = (N : Int)) :
    thread_pool.do_run fuel p
      = some { p with _currj := wrap32 ((N : Int) + 1), _cmd := command.wait,
                      trace := p.trace ++ (List.range N).map (fun (j : Nat) => Event.invoke (j : Int))
                        ++ [Event.store command.wait] } := by
  unfold thread_pool.do_run
  rw [thread_pool.do_run_loop_eq N 0 fuel p hf (by simp [hc]) (by simp [ht]) (by omega)]
  simp [thread_pool.set_cmd, List.range_eq_range']

theorem thread_pool.invoked_append (p : thread_pool) (N : Nat) (pre post : List Event)
    (h1 : pre.filterMap (fun e => match e with | Event.invoke j => some j | _ => none) = [])
    (h2 : post.filterMap (fun e => match e with | Event.invoke j => some j | _ => none) = []) :
    (p.trace ++ pre ++ (List.range N).map (fun (j : Nat) => Event.invoke (j : Int)) ++ post).filterMap
        (fun e => match e with | Event.invoke j => some j | _ => none)
      = p.invoked ++ (List.range N).map Int.ofNat := by
  simp only [List.filterMap_append, h1, h2, List.append_nil, thread_pool.invoked]
  congr 1
  induction (List.range N) with
  | nil => rfl
  | cons hd tl ih => simp [List.filterMap_cons, ih]

/-- On a pool whose counter is not positive, `run_njob(N, f)` drained by the
driving thread alone returns, with job count `N` and the calls
`f(0), ..., f(N - 1)`. -/
theorem thread_pool.run_njob_alone (fuel N : Nat) (p : thread_pool) (hf : N < fuel)
    (hN : N < 2147483648) (hb : p._busy ≤ 0) :
    ∃ q, thread_pool.run_njob fuel (N : Int) p = some q ∧ q._totalj = (N : Int)
      ∧ q._threads = p._threads
      ∧ q.invoked = p.invoked ++ (List.range N).map Int.ofNat := by
  have hb' : ¬ (p._busy > 0) := by omega
  unfold thread_pool.run_njob
  by_cases hth : p._threads = 0
  · simp only [hth, ne_eq, not_true_eq_false, if_false]
    rw [thread_pool.do_run_eq fuel N _ hf hN rfl rfl]
    simp only [Option.some_bind, thread_pool.wait_free, if_neg hb']
    refine ⟨_, rfl, rfl, rfl, ?_⟩
    have := thread_pool.invoked_append p N [] [Event.store command.wait] rfl rfl
    simpa [thread_pool.invoked] using this
  · simp only [ne_eq, hth, not_false_eq_true, if_true]
    rw [thread_pool.do_run_eq fuel N _ hf hN rfl rfl]
    simp only [Option.some_bind, thread_pool.wait_free, thread_pool.set_cmd,
      thread_pool.notify, if_neg hb']
    refine ⟨_, rfl, rfl, rfl, ?_⟩
    have := thread_pool.invoked_append p N [Event.store command.run, Event.notify]
      [Event.store command.wait] rfl rfl
    simpa [thread_pool.invoked, thread_pool.set_cmd, thread_pool.notify] using this

/-- C5: `try_lock()` returns `true` exactly when the flag was free before the
call and always leaves the flag held; on a held lock it returns `false` and
leaves it held; from every state `unlock()` followed by `try_lock()` returns
`true`; `locked()` returns the flag and changes nothing. -/
theorem spin_lock_try_lock_spec (s : spin_lock) :
    ((spin_lock.try_lock s).1 = true ↔ s._a = false)
    ∧ (spin_lock.try_lock s).2._a = true
    ∧ (spin_lock.try_lock ⟨true⟩ = (false, ⟨true⟩))
    ∧ (spin_lock.try_lock (spin_lock.unlock s)).1 = true
    ∧ spin_lock.locked s = (s._a, s) := by
  obtain ⟨flag⟩ := s
  cases flag <;> simp [spin_lock.try_lock, spin_lock.exchange, spin_lock.unlock, spin_lock.locked]

/-- C6: starting from a free lock with all threads outside, after any schedule
of lock-loop exchanges, `try_lock()` calls and `unlock()` calls by holders, at
most one thread is inside its critical section, and the flag is held whenever
some thread is. -/
theorem spin_lock_mutual_exclusion (n : Nat) (sched : List (Nat × LAct)) (s : LockSys)
    (h : LockSys.exec sched (LockSys.init n) = some s) :
    s.pcs.count LPc.critical ≤ 1 ∧ (LPc.critical ∈ s.pcs → s.lk._a = true) := by
  have hinv := LockSys.lock_inv_exec sched _ s (LockSys.lock_inv_init n) h
  unfold LockSys.Inv at hinv
  constructor
  · rw [hinv]; split <;> omega
  · intro hmem
    have hpos : 0 < s.pcs.count LPc.critical := List.count_pos_iff.mpr hmem
    by_contra hne
    simp [hne] at hinv
    omega

/-- C1 (amended): for `run_njob(n, f)` with `w` workers, `n + w + 1 ≤ 2^31`,
after any schedule of the participants' steps the callable has been invoked on
pairwise distinct indices, all in `[0, n)`; when every participant has left
`do_run()` it has been invoked on each index of `[0, n)` exactly once; a
schedule has at most `2 * n + w + 1` steps, every participant has left exactly
when it has that many, and before that some participant can take a step. -/
theorem drain_exactly_once (n w : Nat) (sched : List Nat) (s : Drain)
    (hb : n + (w + 1) ≤ 2147483648)
    (h : Drain.exec sched (Drain.init (n : Int) w) = some s) :
    s.calls.Nodup ∧ (∀ j ∈ s.calls, 0 ≤ j ∧ j < (n : Int))
    ∧ (s.allDone → s.calls.Perm ((List.range n).map Int.ofNat))
    ∧ sched.length ≤ 2 * n + (w + 1)
    ∧ (s.allDone ↔ sched.length = 2 * n + (w + 1))
    ∧ (¬ s.allDone → ∃ i, i ≤ w ∧ (Drain.step i s).isSome = true) := by
  have hinv := Drain.inv_exec n w 0 sched _ s hb (Drain.inv_init n w) h
  obtain ⟨c, hc, ht, hl, hperm, hfin, hmeas⟩ := hinv
  clear hc
  have hcl := List.count_le_length Pc.done s.pcs
  have hall := Drain.allDone_iff s
  have hnd : s.claimed.Nodup :=
    hperm.nodup_iff.mpr ((List.nodup_range _).map Int.ofNat_injective)
  refine ⟨?_, ?_, ?_, ?_, ?_, ?_⟩
  · exact (List.nodup_append.mp hnd).1
  · intro j hj
    have hm : j ∈ s.claimed := List.mem_append_left _ hj
    rw [hperm.mem_iff, List.mem_map] at hm
    obtain ⟨m, hm1, hm2⟩ := hm
    rw [List.mem_range] at hm1
    subst hm2
    constructor
    · exact Int.ofNat_nonneg m
    · show (m : Int) < (n : Int)
      omega
  · intro hd
    have hheld := Drain.held_of_allDone s hd
    have hf := hall.mp hd
    unfold Drain.finished at hfin hf
    have e : min c n = n := by omega
    rw [e] at hperm
    simpa [Drain.claimed, hheld] using hperm
  · unfold Drain.finished at hfin hmeas
    omega
  · constructor
    · intro hd
      have hheld := Drain.held_of_allDone s hd
      have hf := hall.mp hd
      unfold Drain.finished at hfin hf hmeas
      rw [hheld] at hmeas
      simp at hmeas
      omega
    · intro hlen
      apply hall.mpr
      unfold Drain.finished at hfin hmeas ⊢
      omega
  · intro hnd
    unfold Drain.allDone at hnd
    push_neg at hnd
    obtain ⟨pc, hpc, hne⟩ := hnd
    obtain ⟨i, hi, hget⟩ := List.getElem_of_mem hpc
    refine ⟨i, by omega, ?_⟩
    have hq : s.pcs[i]? = some pc := by rw [List.getElem?_eq_getElem hi, hget]
    unfold Drain.step
    rw [hq]
    cases pc with
    | ready => simp only; split <;> rfl
    | got j => rfl
    | done => exact absurd rfl hne

/-- A run of `run_njob(2, f)` by the driving thread and one worker that take
turns: each claims one index, runs it, and leaves. -/
theorem drain_exactly_once_witness :
    Drain.exec [0, 1, 0, 1, 0, 1] (Drain.init 2 1)
        = some ⟨4, 2, command.wait, [Pc.done, Pc.done], [1, 0]⟩
    ∧ ([1, 0] : List Int).Perm ((List.range 2).map Int.ofNat) :=
  ⟨by decide,
   (drain_exactly_once 2 1 [0, 1, 0, 1, 0, 1] ⟨4, 2, command.wait, [Pc.done, Pc.done], [1, 0]⟩
      (by decide) (by decide)).2.2.1 (by decide)⟩

/-- C1 as stated fails: with `n = 2^31 - 1` jobs and one worker, the driving
thread claims and runs every job and leaves with its failing fetch, which
wraps the cursor round to `-2^31`; the worker then fetches `-2^31`, below
`_totalj`, and passes it to the callable. -/
theorem drain_index_out_of_range :
    ∃ s, Drain.exec (List.replicate (2 * 2147483647) 0 ++ [0, 1, 1]) (Drain.init 2147483647 1)
        = some s
      ∧ (-2147483648 : Int) ∈ s.calls ∧ ¬ (0 ≤ (-2147483648 : Int)) := by
  obtain ⟨calls', hex⟩ := Drain.exec_solo 2147483647 command.run [Pc.ready] 2147483647 0 []
    (by decide) (by decide) (by decide)
  refine ⟨⟨wrap32 (-2147483648 + 1), 2147483647, command.wait, [Pc.done, Pc.ready],
    (-2147483648) :: calls'⟩, ?_, List.mem_cons_self _ _, by decide⟩
  rw [Drain.exec_append]
  have hi : Drain.init 2147483647 1
      = ⟨0, 2147483647, command.run, [Pc.ready, Pc.ready], []⟩ := by
    simp [Drain.init, List.replicate]
  rw [hi, hex]
  simp [Drain.exec, Drain.step, wrap32]

/-- C10 (amended): throughout `run_njob(n, f)` with `w` workers the cursor is
at most `n + w + 1`, one overshoot for each participant; when
`n + w + 1 ≤ 2^31` and every participant has left `do_run()` the cursor holds
`n + w + 1` as a 32-bit value. -/
theorem drain_cursor_bound (n w : Nat) (sched : List Nat) (s : Drain)
    (h : Drain.exec sched (Drain.init (n : Int) w) = some s) :
    s._currj ≤ (n : Int) + ((w : Int) + 1)
    ∧ (n + (w + 1) ≤ 2147483648 → s.allDone → s._currj = wrap32 ((n : Int) + ((w : Int) + 1))) := by
  have hr := Drain.exec_range sched _ s (by simp [Drain.init]) h
  have key : n + (w + 1) ≤ 2147483648 →
      ∃ c : Nat, s._currj = wrap32 (c : Int) ∧ c ≤ n + (w + 1) ∧ (s.allDone → c = n + (w + 1)) := by
    intro hb
    obtain ⟨c, hc, ht, hl, hperm, hfin, hmeas⟩ :=
      Drain.inv_exec n w 0 sched _ s hb (Drain.inv_init n w) h
    have hcl := List.count_le_length Pc.done s.pcs
    have hall := Drain.allDone_iff s
    unfold Drain.finished at hfin hall
    refine ⟨c, hc, ?_, ?_⟩ <;> clear hc
    · omega
    · intro hd
      have := hall.mp hd
      omega
  constructor
  · by_cases hb : n + (w + 1) ≤ 2147483648
    · obtain ⟨c, hc, hle, _⟩ := key hb
      rw [hc]
      unfold wrap32
      omega
    · omega
  · intro hb hd
    obtain ⟨c, hc, _, hcd⟩ := key hb
    rw [hc, hcd hd]
    push_cast
    rfl

/-- A run of `run_njob(1, f)` by the driving thread alone: the cursor ends at 2. -/
theorem drain_cursor_bound_witness :
    Drain.exec [0, 0, 0] (Drain.init 1 0) = some ⟨2, 1, command.wait, [Pc.done], [0]⟩
    ∧ (2 : Int) ≤ 1 + (0 + 1) :=
  ⟨by decide,
   (drain_cursor_bound 1 0 [0, 0, 0] ⟨2, 1, command.wait, [Pc.done], [0]⟩ (by decide)).1⟩

/-- C10 as stated fails: in `run_njob(0, f)` on a pool without workers the
first fetch-and-increment of the driving thread leaves the cursor at 1, above
the job count 0. -/
theorem drain_cursor_exceeds_total :
    Drain.exec [0] (Drain.init 0 0) = some ⟨1, 0, command.wait, [Pc.done], []⟩
    ∧ ¬ ((1 : Int) ≤ 0) := by
  decide

/-- An acquisition by `lock()`, a failed `try_lock()` and a spin of the other
thread, the release, and the acquisition by the spinning thread. -/
theorem spin_lock_mutual_exclusion_witness :
    LockSys.exec [(0, LAct.lock_iter), (1, LAct.try_lock), (1, LAct.lock_iter), (0, LAct.unlock),
        (1, LAct.lock_iter)] (LockSys.init 2) = some ⟨⟨true⟩, [LPc.idle, LPc.critical]⟩
    ∧ [LPc.idle, LPc.critical].count LPc.critical ≤ 1 :=
  ⟨by decide,
   (spin_lock_mutual_exclusion 2
      [(0, LAct.lock_iter), (1, LAct.try_lock), (1, LAct.lock_iter), (0, LAct.unlock),
        (1, LAct.lock_iter)]
      ⟨⟨true⟩, [LPc.idle, LPc.critical]⟩ (by decide)).1⟩

/-- C2: on a pool without workers, as left by `stop()` or built by
`thread_pool(n)` with `n ≤ 1`, `run_njob(N, f)` returns (given fuel for the
`N + 1` evaluations of the loop condition); its actions are the calls
`f(0), f(1), ..., f(N - 1)` in that order followed by the store of
`command::wait`, with no `notify()` and no store of `command::run`; on return
`_cmd` is `wait`, `_busy` is 0 and there is still no worker. -/
theorem run_njob_no_workers (fuel N : Nat) (p : thread_pool) (hf : N < fuel)
    (hN : N < 2147483648)
    (hp : (∃ p0, p = thread_pool.stop p0)
      ∨ (∃ n raw, n ≤ 1 ∧ thread_pool.construct n raw = some p)) :
    thread_pool.run_njob fuel (N : Int) p
      = some { _threads := 0, _cmd := command.wait, _busy := 0,
               _currj := wrap32 ((N : Int) + 1), _totalj := (N : Int),
               trace := p.trace ++ (List.range N).map (fun (j : Nat) => Event.invoke (j : Int))
                 ++ [Event.store command.wait] } := by
  have h0 : p._threads = 0 ∧ p._busy = 0 := by
    rcases hp with ⟨p0, rfl⟩ | ⟨n, raw, hn, hc⟩
    · simp [thread_pool.stop, thread_pool.set_cmd, thread_pool.notify]
    · have hk : (if n > 0 then n - 1 else 0) = 0 := by split <;> omega
      unfold thread_pool.construct thread_pool.extend_by at hc
      rw [hk] at hc
      simp [thread_pool.extend_by_spawn, thread_pool.spawn_workers, thread_pool.set_cmd,
        thread_pool.wait_free] at hc
      subst hc
      simp
  obtain ⟨ht, hbz⟩ := h0
  unfold thread_pool.run_njob thread_pool.do_run
  simp only [ht, ne_eq, not_true_eq_false, if_false]
  rw [thread_pool.do_run_loop_eq N 0 fuel _ hf (by simp) (by simp) (by omega)]
  simp [thread_pool.set_cmd, thread_pool.wait_free, hbz, ht, List.range_eq_range']

/-- The pool `thread_pool(1)` after `stop()`, and `run_njob(3, f)` on it. -/
theorem run_njob_no_workers_witness :
    thread_pool.run_njob 4 3 (thread_pool.stop ⟨2, command.wait, 0, 0, 0, []⟩)
      = some ⟨0, command.wait, 0, 4, 3,
          [Event.store command.stop, Event.notify, Event.join, Event.join,
            Event.store command.wait, Event.invoke 0, Event.invoke 1, Event.invoke 2,
            Event.store command.wait]⟩ :=
  (run_njob_no_workers 4 3 (thread_pool.stop ⟨2, command.wait, 0, 0, 0, []⟩) (by decide)
    (by decide) (Or.inl ⟨⟨2, command.wait, 0, 0, 0, []⟩, rfl⟩)).trans (by decide)

/-- C3 (the code): on the pool of `n + 1` participants built by
`thread_pool(n + 1)`, `n` workers and the driving thread, `run(f)` installs
the job count `n` and the callable is invoked on `0, ..., n - 1` only, one job
short of one per participant, whereas `run_njob(n + 1, f)` invokes it on
`0, ..., n`; for `thread_pool(1)` the callable is never invoked. -/
theorem run_dispatches_worker_count (n fuel : Nat) (raw : thread_pool)
    (hn : n + 1 < 2147483648) (hf : n + 1 < fuel) :
    ∃ p q r, thread_pool.construct ((n : Int) + 1) raw = some p ∧ p._threads = n
      ∧ thread_pool.run fuel p = some q ∧ q._totalj = (n : Int)
      ∧ q.invoked = (List.range n).map Int.ofNat
      ∧ thread_pool.run_njob fuel ((n : Int) + 1) p = some r
      ∧ r.invoked = (List.range (n + 1)).map Int.ofNat := by
  have hk : (if (n : Int) + 1 > 0 then (n : Int) + 1 - 1 else 0) = (n : Int) := by
    split <;> omega
  have hs : thread_pool.extend_by_spawn (n : Int) { raw with _threads := 0, trace := [] }
      = { raw with _threads := n, _cmd := command.wait, _busy := (n : Int),
                   trace := Event.store command.wait :: List.replicate n Event.spawn } := by
    simp [thread_pool.extend_by_spawn, thread_pool.spawn_workers_eq, thread_pool.set_cmd]
  obtain ⟨i1, i2, _, _, _⟩ := thread_pool.do_wait_enter_iterate n
    (thread_pool.extend_by_spawn (n : Int) { raw with _threads := 0, trace := [] })
    (by rw [hs]) (by rw [hs]; simp only; omega)
  have i3 := thread_pool.do_wait_enter_invoked n
    (thread_pool.extend_by_spawn (n : Int) { raw with _threads := 0, trace := [] })
  have hc : thread_pool.construct ((n : Int) + 1) raw
      = some (thread_pool.do_wait_enter^[n]
          (thread_pool.extend_by_spawn (n : Int) { raw with _threads := 0, trace := [] })) := by
    unfold thread_pool.construct thread_pool.extend_by thread_pool.wait_free
    rw [hk]
    simp only [Int.toNat_ofNat]
    rw [if_neg]
    rw [i1, hs]
    simp
  generalize thread_pool.do_wait_enter^[n]
    (thread_pool.extend_by_spawn (n : Int) { raw with _threads := 0, trace := [] }) = p
    at i1 i2 i3 hc
  rw [hs] at i1 i2 i3
  simp only [sub_self] at i1
  have hinv : p.invoked = [] := by
    rw [i3]
    simp [thread_pool.invoked]
  simp only at i2
  obtain ⟨q, hq1, hq2, _, hq4⟩ :=
    thread_pool.run_njob_alone fuel n p (by omega) (by omega) (by omega)
  obtain ⟨r, hr1, _, _, hr4⟩ :=
    thread_pool.run_njob_alone fuel (n + 1) p hf hn (by omega)
  refine ⟨p, q, r, hc, i2, ?_, hq2, ?_, ?_, ?_⟩
  · unfold thread_pool.run
    rw [i2]
    exact hq1
  · rw [hq4, hinv]; rfl
  · rw [← hr1]; push_cast; rfl
  · rw [hr4, hinv]; rfl

/-- The pool built by `thread_pool(1)`, one participant: `run(f)` returns
without having invoked the callable. -/
theorem run_dispatches_worker_count_witness :
    ∃ p q r, thread_pool.construct 1 ⟨0, command.wait, 0, 0, 0, []⟩ = some p ∧ p._threads = 0
      ∧ thread_pool.run 2 p = some q ∧ q._totalj = 0
      ∧ q.invoked = []
      ∧ thread_pool.run_njob 2 1 p = some r
      ∧ r.invoked = [0] :=
  run_dispatches_worker_count 0 2 ⟨0, command.wait, 0, 0, 0, []⟩ (by decide) (by decide)

/-- C4 (amended): `temporary_run(nth, f)` with `nth ≤ 1` invokes `f(0)` on the
calling thread and creates no thread; with `1 < nth < 2^31` and `nth` within
the capacity `std::vector` accepts it creates and joins exactly `nth` threads,
the `i`-th of which invokes `f(i)` and nothing else, and the calling thread
invokes nothing. -/
theorem temporary_run_spec (max_size nth : Nat) :
    (nth ≤ 1 → temporary_run max_size nth = Except.ok ⟨[0], [], 0⟩)
    ∧ (1 < nth → nth ≤ max_size → nth < 2147483648 →
        temporary_run max_size nth
          = Except.ok ⟨[], (List.range nth).map (fun (i : Nat) => [(i : Int)]), nth⟩) := by
  rw [temporary_run_eq]
  constructor
  · intro h
    rw [if_pos h]
  · intro h1 h2 h3
    rw [if_neg (by omega), if_neg (by omega), if_pos h3]

/-- The call `temporary_run(3, f)` with the capacity limit `2^60 - 1`: three
threads, invoking `f(0)`, `f(1)` and `f(2)`. -/
theorem temporary_run_spec_witness :
    temporary_run 1152921504606846975 3 = Except.ok ⟨[], [[0], [1], [2]], 3⟩ :=
  (temporary_run_spec 1152921504606846975 3).2 (by decide) (by decide) (by decide)

/-- C4 as stated fails: `temporary_run(2^31, f)` does not return with `2^31`
threads having run, whatever the capacity `std::vector` accepts: either
`reserve` throws, or the last `i++` finds the `int i` at `INT_MAX`; and
`temporary_run(2^64 - 1, f)`, the largest `size_t`, does not either. -/
theorem temporary_run_count_out_of_range :
    (¬ ∃ (max_size : Nat) (r : TempRun), temporary_run max_size 2147483648 = Except.ok r)
    ∧ (¬ ∃ (max_size : Nat) (r : TempRun),
        temporary_run max_size 18446744073709551615 = Except.ok r) := by
  constructor
  · rintro ⟨ms, r, h⟩
    rw [temporary_run_eq] at h
    by_cases hm : 2147483648 > ms
    · simp [hm] at h
    · simp [hm] at h
  · rintro ⟨ms, r, h⟩
    rw [temporary_run_eq] at h
    by_cases hm : 18446744073709551615 > ms
    · simp [hm] at h
    · simp [hm] at h

/-- C7 (the code): on a pool of `m` parked workers with counter 0,
`extend_by(k)` leaves `m + k` workers, and once the `k` new workers have
entered `do_wait()` the counter is `m`, not 0: the barrier wait of
`extend_by` is passed exactly when `m = 0`. -/
theorem extend_by_counter_after_park (k : Nat) (p : thread_pool)
    (hb : p._threads + k < 2147483648) :
    (thread_pool.do_wait_enter^[k] (thread_pool.extend_by_spawn (k : Int) p))._threads
        = p._threads + k
    ∧ (thread_pool.do_wait_enter^[k] (thread_pool.extend_by_spawn (k : Int) p))._busy
        = (p._threads : Int)
    ∧ (thread_pool.extend_by (k : Int) p = none ↔ 0 < p._threads) := by
  have hs : thread_pool.extend_by_spawn (k : Int) p
      = { p with _threads := p._threads + k, _cmd := command.wait,
                 _busy := (k : Int) + (p._threads : Int),
                 trace := p.trace ++ [Event.store command.wait] ++ List.replicate k Event.spawn } := by
    simp [thread_pool.extend_by_spawn, thread_pool.spawn_workers_eq, thread_pool.set_cmd]
  obtain ⟨i1, i2, _, _, _⟩ := thread_pool.do_wait_enter_iterate k
    (thread_pool.extend_by_spawn (k : Int) p) (by rw [hs]; simp) (by rw [hs]; simp; omega)
  have e1 : (thread_pool.extend_by_spawn (k : Int) p)._busy = (k : Int) + (p._threads : Int) := by
    rw [hs]
  have e2 : (thread_pool.extend_by_spawn (k : Int) p)._threads = p._threads + k := by
    rw [hs]
  rw [e1] at i1
  rw [e2] at i2
  refine ⟨i2, by rw [i1]; omega, ?_⟩
  unfold thread_pool.extend_by thread_pool.wait_free
  simp only [Int.toNat_ofNat]
  rw [i1]
  constructor
  · intro h
    by_contra hne
    have hz : ¬ ((k : Int) + (p._threads : Int) - (k : Int) > 0) := by omega
    simp [hz] at h
    omega
  · intro h
    have hz : (k : Int) + (p._threads : Int) - (k : Int) > 0 := by omega
    simp [hz]
    omega

/-- The pool built by `thread_pool(2)`, one parked worker, extended by one:
the new worker parks and the counter stays at 1. -/
theorem extend_by_counter_after_park_witness :
    (thread_pool.do_wait_enter^[1]
        (thread_pool.extend_by_spawn 1 ⟨1, command.wait, 0, 0, 0, []⟩))._busy = 1
    ∧ thread_pool.extend_by 1 ⟨1, command.wait, 0, 0, 0, []⟩ = none :=
  ⟨(extend_by_counter_after_park 1 ⟨1, command.wait, 0, 0, 0, []⟩ (by decide)).2.1,
   by decide⟩

/-- C8: the constructor `thread_pool(n)`, up to its barrier, has spawned
`n - 1` workers when `n > 0` and none when `n ≤ 0`, has stored
`command::wait` to `_cmd`, and has set `_busy` to the number of workers
spawned, whatever the members held before. -/
theorem construct_spawn_spec (n : Int) (raw : thread_pool) :
    ((thread_pool.construct_spawn n raw)._threads : Int) = (if n > 0 then n - 1 else 0)
    ∧ (thread_pool.construct_spawn n raw)._cmd = command.wait
    ∧ (thread_pool.construct_spawn n raw)._busy = ((thread_pool.construct_spawn n raw)._threads : Int)
    ∧ (thread_pool.construct_spawn n raw).trace
        = Event.store command.wait
            :: List.replicate (thread_pool.construct_spawn n raw)._threads Event.spawn := by
  have hk : 0 ≤ (if n > 0 then n - 1 else 0) := by split <;> omega
  unfold thread_pool.construct_spawn
  generalize (if n > 0 then n - 1 else 0) = k at hk
  obtain ⟨m, rfl⟩ := Int.eq_ofNat_of_zero_le hk
  simp [thread_pool.extend_by_spawn, thread_pool.spawn_workers_eq, thread_pool.set_cmd]

/-- C9: after `stop()` there is no worker, `_busy` is 0 and `_cmd` is `wait`,
whatever the pool held before; a second `stop()` joins no thread and leaves
every data member as the first left it. -/
theorem stop_spec (p : thread_pool) :
    (thread_pool.stop p)._threads = 0
    ∧ (thread_pool.stop p)._busy = 0
    ∧ (thread_pool.stop p)._cmd = command.wait
    ∧ thread_pool.stop (thread_pool.stop p)
        = { thread_pool.stop p with
            trace := (thread_pool.stop p).trace
              ++ [Event.store command.stop, Event.notify, Event.store command.wait] } := by
  simp [thread_pool.stop, thread_pool.set_cmd, thread_pool.notify]

end sea
